import Mathlib

/-!
Verification of the data-parallel primitives in
`6_Example_PackingProblem` (`main.cpp` and `seqvsparallel.cpp`):
`doMap`, `doScan` (TBB `parallel_scan` with its pre-scan / final-scan
protocol and reverse join), the scatter pass `doFilter`, the composed
stream compaction `vecFilter`, and the sequential reference
`DoSerialScan`.

Arrays are modelled as total index functions `Nat → α` updated
pointwise.  An execution schedule of the TBB range splitter is an
explicit binary range tree; each internal node records whether its
right subtree was executed out of order (pre-scanned starting from a
fresh identity accumulator, its total later reverse-joined onto the
left prefix) or sequentially, carrying the left side's running sum.
-/

set_option autoImplicit false

variable {α : Type} {β : Type}

/-- Pointwise store: array `a` with slot `i` overwritten by `v`. -/
def upd (a : Nat → α) (i : Nat) (v : α) : Nat → α :=
  fun j => if j = i then v else a j

/-- Sequential running reduction of `f` over the index segment
`[lo, lo + c)` of array `inp`, starting from accumulator `acc`:
the loop `for (i = lo; i != lo + c; i++) acc = f(acc, inp[i])`. -/
def foldFrom (f : α → α → α) (inp : Nat → α) : α → Nat → Nat → α
  | acc, _, 0 => acc
  | acc, lo, c + 1 => foldFrom f inp (f acc (inp lo)) (lo + 1) c

/-- A schedule of TBB's recursive range splitter: a binary tree of
half-open index ranges.  The `stolen` flag on a node records whether
the right child ran before the left child's final sum was available
(forcing a pre-scan from the identity plus a later reverse join). -/
inductive RTree : Type where
  | leaf (lo hi : Nat)
  | node (stolen : Bool) (l r : RTree)

/-- First index covered by a range tree (leftmost leaf's `lo`). -/
def RTree.first : RTree → Nat
  | .leaf lo _ => lo
  | .node _ l _ => l.first

/-- One past the last index covered (rightmost leaf's `hi`). -/
def RTree.last : RTree → Nat
  | .leaf _ hi => hi
  | .node _ _ r => r.last

/-- Well-formed schedule: every leaf range is ordered and sibling
subtrees cover adjacent index ranges, so the tree partitions
`[first, last)` into consecutive leaf segments. -/
def RTree.wf : RTree → Prop
  | .leaf lo hi => lo ≤ hi
  | .node _ l r => l.wf ∧ r.wf ∧ l.last = r.first

instance RTree.wfDecidable : (t : RTree) → Decidable t.wf
  | .leaf lo hi => inferInstanceAs (Decidable (lo ≤ hi))
  | .node _ l r =>
      have : Decidable l.wf := wfDecidable l
      have : Decidable r.wf := wfDecidable r
      inferInstanceAs (Decidable (_ ∧ _ ∧ _))

/-! ### `doMap` (main.cpp lines 31-44) -/

/-- Leaf body of `doMap`: the loop
`for (i = lo; i != lo + c; i++) out[i] = func(in[i]);`. -/
def mapLeaf (f : α → β) (inp : Nat → α) : Nat → Nat → (Nat → β) → Nat → β
  | _, 0, out => out
  | lo, c + 1, out => mapLeaf f inp (lo + 1) c (upd out lo (f (inp lo)))

/-- `doMap` from main.cpp: `tbb::parallel_for` applies the leaf loop to
every leaf range of the schedule; writes are to disjoint slots, so the
subtrees may run in any order — we fold them left to right. -/
def doMap (f : α → β) (inp : Nat → α) : RTree → (Nat → β) → Nat → β
  | .leaf lo hi, out => mapLeaf f inp lo (hi - lo) out
  | .node _ l r, out => doMap f inp r (doMap f inp l out)

/-! ### `doScan` (main.cpp lines 77-98) -/

/-- Final-scan leaf body of `doScan`'s lambda with
`is_final_scan = true`: `tmp = func(tmp, in[i]); out[i] = tmp;` for
each `i` in `[lo, lo + c)`, returning the updated array and `tmp`. -/
def scanLeafFinal (f : α → α → α) (inp : Nat → α) :
    Nat → Nat → α → (Nat → α) → (Nat → α) × α
  | _, 0, acc, out => (out, acc)
  | lo, c + 1, acc, out =>
      scanLeafFinal f inp (lo + 1) c (f acc (inp lo))
        (upd out lo (f acc (inp lo)))

/-- Pre-scan total of a subtree: a leaf runs `doScan`'s lambda with
`is_final_scan = false` starting from a fresh accumulator `ident`
(no writes to `out`); an internal node combines its children's totals
left-to-right with `func`, exactly TBB's summary combination. -/
def preScan (f : α → α → α) (ident : α) (inp : Nat → α) : RTree → α
  | .leaf lo hi => foldFrom f inp ident lo (hi - lo)
  | .node _ l r => f (preScan f ident inp l) (preScan f ident inp r)

/-- `doScan` from main.cpp, run under schedule `t` with incoming
prefix `incoming`: a leaf runs the final-scan loop; at a node the left
subtree is finalised with the incoming prefix, and the right subtree's
incoming prefix is either the left's carried running sum (sequential
execution) or `func(incoming, preScan left)` (the stolen / reverse-join
path, where the left total was pre-computed from the identity).
Returns the written array and the range's summary. -/
def doScan (f : α → α → α) (ident : α) (inp : Nat → α) :
    RTree → α → (Nat → α) → (Nat → α) × α
  | .leaf lo hi, incoming, out => scanLeafFinal f inp lo (hi - lo) incoming out
  | .node stolen l r, incoming, out =>
      let resl := doScan f ident inp l incoming out
      let incR := if stolen then f incoming (preScan f ident inp l) else resl.2
      doScan f ident inp r incR resl.1

/-! ### `DoSerialScan` (seqvsparallel.cpp lines 101-113), generalised
from `(+, 0)` on `T` to an arbitrary combiner and start element. -/

/-- The loop of `DoSerialScan`:
`temp = add(temp, x[i]); y[i] = temp;` for `i` in `[lo, lo + c)`. -/
def serialLoop (add : α → α → α) (x : Nat → α) :
    Nat → Nat → α → (Nat → α) → (Nat → α) × α
  | _, 0, temp, y => (y, temp)
  | i, c + 1, temp, y =>
      serialLoop add x (i + 1) c (add temp (x i)) (upd y i (add temp (x i)))

/-- `DoSerialScan` from seqvsparallel.cpp: `temp = zero;` then the
sequential loop over `[0, n)`, returning the written array and
`temp` (the source instantiates `zero = 0`, `add = +`). -/
def DoSerialScan (add : α → α → α) (zero : α) (x : Nat → α) (n : Nat)
    (y : Nat → α) : (Nat → α) × α :=
  serialLoop add x 0 n zero y

/-! ### Basic fold lemmas -/

theorem foldFrom_zero (f : α → α → α) (inp : Nat → α) (acc : α) (lo : Nat) :
    foldFrom f inp acc lo 0 = acc := rfl

theorem foldFrom_succ (f : α → α → α) (inp : Nat → α) (acc : α) (lo c : Nat) :
    foldFrom f inp acc lo (c + 1) =
      foldFrom f inp (f acc (inp lo)) (lo + 1) c := rfl

/-- Splitting a fold over `[lo, lo + m + k)` at `lo + m`. -/
theorem foldFrom_add (f : α → α → α) (inp : Nat → α) :
    ∀ (m k : Nat) (acc : α) (lo : Nat),
      foldFrom f inp acc lo (m + k) =
        foldFrom f inp (foldFrom f inp acc lo m) (lo + m) k := by
  intro m
  induction m with
  | zero => intro k acc lo; rw [Nat.zero_add, foldFrom_zero, Nat.add_zero]
  | succ m ih =>
      intro k acc lo
      have h1 : m + 1 + k = (m + k) + 1 := by omega
      rw [h1, foldFrom_succ, ih, foldFrom_succ]
      have h2 : lo + 1 + m = lo + (m + 1) := by omega
      rw [h2]

/-- With an associative `f`, an outer accumulator can be pushed into
the start of a fold. -/
theorem foldFrom_pull (f : α → α → α)
    (hassoc : ∀ a b c, f (f a b) c = f a (f b c)) (inp : Nat → α) :
    ∀ (c : Nat) (a b : α) (lo : Nat),
      f a (foldFrom f inp b lo c) = foldFrom f inp (f a b) lo c := by
  intro c
  induction c with
  | zero => intro a b lo; rfl
  | succ c ih =>
      intro a b lo
      rw [foldFrom_succ, foldFrom_succ, ih, hassoc]

/-- A fold only reads the array on its own segment. -/
theorem foldFrom_congr (f : α → α → α) (g1 g2 : Nat → α) :
    ∀ (c lo : Nat) (acc : α),
      (∀ i, lo ≤ i → i < lo + c → g1 i = g2 i) →
      foldFrom f g1 acc lo c = foldFrom f g2 acc lo c := by
  intro c
  induction c with
  | zero => intro lo acc _; rfl
  | succ c ih =>
      intro lo acc h
      rw [foldFrom_succ, foldFrom_succ, h lo (Nat.le_refl lo) (by omega)]
      exact ih (lo + 1) _ (fun i h1 h2 => h i (by omega) (by omega))

/-! ### Leaf loop characterisations -/

theorem scanLeafFinal_snd (f : α → α → α) (inp : Nat → α) :
    ∀ (c lo : Nat) (acc : α) (out : Nat → α),
      (scanLeafFinal f inp lo c acc out).2 = foldFrom f inp acc lo c := by
  intro c
  induction c with
  | zero => intro lo acc out; rfl
  | succ c ih => intro lo acc out; exact ih (lo + 1) _ _

theorem scanLeafFinal_fst (f : α → α → α) (inp : Nat → α) :
    ∀ (c lo : Nat) (acc : α) (out : Nat → α) (j : Nat),
      (scanLeafFinal f inp lo c acc out).1 j =
        if lo ≤ j ∧ j < lo + c then foldFrom f inp acc lo (j + 1 - lo)
        else out j := by
  intro c
  induction c with
  | zero =>
      intro lo acc out j
      simp only [scanLeafFinal]
      have : ¬(lo ≤ j ∧ j < lo + 0) := by omega
      rw [if_neg this]
  | succ c ih =>
      intro lo acc out j
      simp only [scanLeafFinal]
      rw [ih]
      by_cases h1 : lo + 1 ≤ j ∧ j < lo + 1 + c
      · rw [if_pos h1, if_pos (by omega)]
        have h2 : j + 1 - lo = (j + 1 - (lo + 1)) + 1 := by omega
        rw [h2, foldFrom_succ]
      · rw [if_neg h1]
        by_cases h2 : j = lo
        · subst h2
          rw [if_pos (by omega)]
          have h3 : j + 1 - j = 1 := by omega
          rw [h3, foldFrom_succ, foldFrom_zero]
          simp [upd]
        · rw [upd, if_neg h2]
          have : ¬(lo ≤ j ∧ j < lo + (c + 1)) := by omega
          rw [if_neg this]

theorem serialLoop_eq_scanLeafFinal (add : α → α → α) (x : Nat → α) :
    ∀ (c i : Nat) (temp : α) (y : Nat → α),
      serialLoop add x i c temp y = scanLeafFinal add x i c temp y := by
  intro c
  induction c with
  | zero => intro i temp y; rfl
  | succ c ih => intro i temp y; exact ih (i + 1) _ _

theorem mapLeaf_spec (f : α → β) (inp : Nat → α) :
    ∀ (c lo : Nat) (out : Nat → β) (j : Nat),
      mapLeaf f inp lo c out j =
        if lo ≤ j ∧ j < lo + c then f (inp j) else out j := by
  intro c
  induction c with
  | zero =>
      intro lo out j
      simp only [mapLeaf]
      have : ¬(lo ≤ j ∧ j < lo + 0) := by omega
      rw [if_neg this]
  | succ c ih =>
      intro lo out j
      simp only [mapLeaf]
      rw [ih]
      by_cases h1 : lo + 1 ≤ j ∧ j < lo + 1 + c
      · rw [if_pos h1, if_pos (by omega)]
      · rw [if_neg h1]
        by_cases h2 : j = lo
        · subst h2
          rw [if_pos (by omega)]
          simp [upd]
        · rw [upd, if_neg h2]
          have : ¬(lo ≤ j ∧ j < lo + (c + 1)) := by omega
          rw [if_neg this]

/-! ### Tree-level characterisations -/

theorem RTree.wf_first_le_last : ∀ (t : RTree), t.wf → t.first ≤ t.last := by
  intro t
  induction t with
  | leaf lo hi => intro h; exact h
  | node s l r ihl ihr =>
      intro h
      have h1 := ihl h.1
      have h2 := ihr h.2.1
      have h3 := h.2.2
      simp only [RTree.first, RTree.last]
      omega

/-- Pointwise result of `doMap` under any well-formed schedule: the
covered slots hold `f` of the input, every other slot is untouched. -/
theorem doMap_spec (f : α → β) (inp : Nat → α) :
    ∀ (t : RTree), t.wf → ∀ (out : Nat → β) (j : Nat),
      doMap f inp t out j =
        if t.first ≤ j ∧ j < t.last then f (inp j) else out j := by
  intro t
  induction t with
  | leaf lo hi =>
      intro h out j
      simp only [doMap, RTree.first, RTree.last]
      rw [mapLeaf_spec]
      by_cases h1 : lo ≤ j ∧ j < hi
      · rw [if_pos (by omega), if_pos h1]
      · rw [if_neg (by omega), if_neg h1]
  | node s l r ihl ihr =>
      intro h out j
      have hll := RTree.wf_first_le_last l h.1
      have hrr := RTree.wf_first_le_last r h.2.1
      have hmid := h.2.2
      simp only [doMap, RTree.first, RTree.last]
      rw [ihr h.2.1, ihl h.1]
      by_cases h1 : r.first ≤ j ∧ j < r.last
      · rw [if_pos h1, if_pos (by omega)]
      · rw [if_neg h1]
        by_cases h2 : l.first ≤ j ∧ j < l.last
        · rw [if_pos h2, if_pos (by omega)]
        · rw [if_neg h2, if_neg (by omega)]

/-- Gluing two consecutive segment folds into one. -/
theorem foldFrom_glue (f : α → α → α) (inp : Nat → α) (acc : α) (a b c : Nat)
    (hab : a ≤ b) (hbc : b ≤ c) :
    foldFrom f inp (foldFrom f inp acc a (b - a)) b (c - b) =
      foldFrom f inp acc a (c - a) := by
  have h := foldFrom_add f inp (b - a) (c - b) acc a
  rw [show a + (b - a) = b by omega] at h
  rw [show b - a + (c - b) = c - a by omega] at h
  exact h.symm

/-- The pre-scan total of a well-formed subtree is the sequential fold
of its whole segment from the identity (needs associativity and the
right-identity law to merge sibling totals). -/
theorem preScan_spec (f : α → α → α) (ident : α) (inp : Nat → α)
    (hassoc : ∀ a b c, f (f a b) c = f a (f b c))
    (hidr : ∀ a, f a ident = a) :
    ∀ (t : RTree), t.wf →
      preScan f ident inp t = foldFrom f inp ident t.first (t.last - t.first) := by
  intro t
  induction t with
  | leaf lo hi => intro _; rfl
  | node s l r ihl ihr =>
      intro h
      have hll := RTree.wf_first_le_last l h.1
      have hrr := RTree.wf_first_le_last r h.2.1
      have hmid := h.2.2
      simp only [preScan, RTree.first, RTree.last]
      rw [ihl h.1, ihr h.2.1, foldFrom_pull f hassoc, hidr, hmid]
      exact foldFrom_glue f inp ident l.first r.first r.last (by omega) (by omega)

/-- Master characterisation of `doScan` under any well-formed schedule
and any incoming prefix: the summary is the sequential fold of the
covered segment from the incoming prefix, every covered slot receives
the running fold up to and including it, and no other slot is written.
Associativity and the right-identity law make the stolen
(reverse-join) path agree with the sequentially carried path. -/
theorem doScan_spec (f : α → α → α) (ident : α) (inp : Nat → α)
    (hassoc : ∀ a b c, f (f a b) c = f a (f b c))
    (hidr : ∀ a, f a ident = a) :
    ∀ (t : RTree), t.wf → ∀ (incoming : α) (out : Nat → α),
      (doScan f ident inp t incoming out).2 =
          foldFrom f inp incoming t.first (t.last - t.first) ∧
      ∀ j, (doScan f ident inp t incoming out).1 j =
        if t.first ≤ j ∧ j < t.last then
          foldFrom f inp incoming t.first (j + 1 - t.first)
        else out j := by
  intro t
  induction t with
  | leaf lo hi =>
      intro h incoming out
      simp only [doScan, RTree.first, RTree.last]
      refine ⟨scanLeafFinal_snd f inp _ _ _ _, fun j => ?_⟩
      rw [scanLeafFinal_fst]
      by_cases h1 : lo ≤ j ∧ j < hi
      · rw [if_pos (by omega), if_pos h1]
      · rw [if_neg (by omega), if_neg h1]
  | node s l r ihl ihr =>
      intro h incoming out
      have hll := RTree.wf_first_le_last l h.1
      have hrr := RTree.wf_first_le_last r h.2.1
      have hmid := h.2.2
      simp only [doScan, RTree.first, RTree.last]
      obtain ⟨hl2, hl1⟩ := ihl h.1 incoming out
      -- both scheduling paths hand the right subtree the same prefix
      have hinc :
          (if s then f incoming (preScan f ident inp l)
           else (doScan f ident inp l incoming out).2) =
            foldFrom f inp incoming l.first (l.last - l.first) := by
        cases s with
        | false => simpa using hl2
        | true =>
            simp only [if_pos]
            rw [preScan_spec f ident inp hassoc hidr l h.1,
              foldFrom_pull f hassoc, hidr]
      rw [hinc]
      obtain ⟨hr2, hr1⟩ := ihr h.2.1
        (foldFrom f inp incoming l.first (l.last - l.first))
        (doScan f ident inp l incoming out).1
      constructor
      · rw [hr2, hmid]
        exact foldFrom_glue f inp incoming l.first r.first r.last
          (by omega) (by omega)
      · intro j
        rw [hr1 j]
        by_cases h1 : r.first ≤ j ∧ j < r.last
        · rw [if_pos h1, if_pos (show l.first ≤ j ∧ j < r.last by omega), hmid]
          exact foldFrom_glue f inp incoming l.first r.first (j + 1)
            (by omega) (by omega)
        · rw [if_neg h1, hl1 j]
          by_cases h2 : l.first ≤ j ∧ j < l.last
          · rw [if_pos h2, if_pos (show l.first ≤ j ∧ j < r.last by omega)]
          · rw [if_neg h2,
              if_neg (show ¬(l.first ≤ j ∧ j < r.last) by omega)]

/-! ### `doFilter` (main.cpp lines 121-134) -/

/-- Consecutive indices `[lo, lo + c)`, the iteration space of a leaf. -/
def idxList : Nat → Nat → List Nat
  | _, 0 => []
  | lo, c + 1 => lo :: idxList (lo + 1) c

/-- Write trace of `doFilter`'s leaf loop
`for (i = lo; i < lo + c; i++) if (bolMatch[i]) out[ixMatch[i]-1] = in[i];`:
the list of (destination slot, stored value) pairs it performs. -/
def filterWritesLeaf (inp : Nat → α) (bol : Nat → Bool) (ix : Nat → Nat) :
    Nat → Nat → List (Nat × α)
  | _, 0 => []
  | i, c + 1 =>
      (if bol i then [(ix i - 1, inp i)] else []) ++
        filterWritesLeaf inp bol ix (i + 1) c

/-- Write trace of `doFilter` under a schedule: the concatenation of
the leaf traces (the writes hit pairwise distinct slots in the intended
use, so the inter-leaf order is immaterial). -/
def filterWrites (inp : Nat → α) (bol : Nat → Bool) (ix : Nat → Nat) :
    RTree → List (Nat × α)
  | .leaf lo hi => filterWritesLeaf inp bol ix lo (hi - lo)
  | .node _ l r => filterWrites inp bol ix l ++ filterWrites inp bol ix r

/-- Replay a write trace onto an output array. -/
def applyWrites (ws : List (Nat × α)) (out : Nat → α) : Nat → α :=
  ws.foldl (fun o w => upd o w.1 w.2) out

/-- `doFilter` from main.cpp: perform the scatter writes of the trace. -/
def doFilter (inp : Nat → α) (bol : Nat → Bool) (ix : Nat → Nat) (t : RTree)
    (out : Nat → α) : Nat → α :=
  applyWrites (filterWrites inp bol ix t) out

/-! ### `vecFilter` (main.cpp lines 171-215) -/

/-- The `bolMatch` array of `vecFilter`: `doMap` of the predicate over
the input vector, into a fresh `vector<bool>(n)` (all slots `false`).
Out-of-range reads of the input vector are modelled by `dflt`. -/
def vfBol (dflt : α) (pred : α → Bool) (input : List α) (tm : RTree) :
    Nat → Bool :=
  doMap pred (fun i => input.getD i dflt) tm (fun _ => false)

/-- The scan step of `vecFilter`: `doScan` with combiner `+` and
identity `0` over `bolMatch` (each `bool` read converting to `size_t`
as `0`/`1`), into a fresh `vector<size_t>(n)`.  Yields the `ixMatch`
array and the returned grand total `outSize`. -/
def vfScan (dflt : α) (pred : α → Bool) (input : List α) (tm ts : RTree) :
    (Nat → Nat) × Nat :=
  doScan (fun a b => a + b) 0
    (fun i => if vfBol dflt pred input tm i then 1 else 0) ts 0 (fun _ => 0)

/-- `vecFilter` from main.cpp: map, scan, then scatter into a fresh
output vector of length `outSize`, read back as a list. -/
def vecFilter (dflt : α) (pred : α → Bool) (input : List α)
    (tm ts tf : RTree) : List α :=
  (List.range (vfScan dflt pred input tm ts).2).map
    (doFilter (fun i => input.getD i dflt) (vfBol dflt pred input tm)
      (vfScan dflt pred input tm ts).1 tf (fun _ => dflt))

/-- Running match count: `cnt p k` is the number of indices `i < k`
with `p i = true` — the value of the inclusive prefix sum. -/
def cnt (p : Nat → Bool) : Nat → Nat
  | 0 => 0
  | k + 1 => cnt p k + (if p k then 1 else 0)

/-! ### Write-trace characterisation -/

theorem idxList_append : ∀ (m k lo : Nat),
    idxList lo (m + k) = idxList lo m ++ idxList (lo + m) k := by
  intro m
  induction m with
  | zero => intro k lo; simp [idxList]
  | succ m ih =>
      intro k lo
      have h1 : m + 1 + k = (m + k) + 1 := by omega
      rw [h1]
      simp only [idxList, List.cons_append]
      rw [ih]
      have h2 : lo + 1 + m = lo + (m + 1) := by omega
      rw [h2]

theorem idxList_eq_range (n : Nat) : idxList 0 n = List.range n := by
  induction n with
  | zero => rfl
  | succ n ih =>
      rw [idxList_append n 1 0, ih, List.range_succ, Nat.zero_add]
      rfl

theorem mem_idxList : ∀ (c lo i : Nat), i ∈ idxList lo c ↔ lo ≤ i ∧ i < lo + c := by
  intro c
  induction c with
  | zero => intro lo i; simp [idxList]
  | succ c ih =>
      intro lo i
      simp only [idxList, List.mem_cons, ih]
      omega

theorem filterWritesLeaf_eq (inp : Nat → α) (bol : Nat → Bool) (ix : Nat → Nat) :
    ∀ (c lo : Nat),
      filterWritesLeaf inp bol ix lo c =
        (idxList lo c).filterMap
          (fun i => if bol i then some (ix i - 1, inp i) else none) := by
  intro c
  induction c with
  | zero => intro lo; rfl
  | succ c ih =>
      intro lo
      simp only [filterWritesLeaf, idxList, List.filterMap_cons]
      rw [ih]
      by_cases h : bol lo
      · rw [if_pos h, if_pos h]; rfl
      · rw [if_neg h, if_neg h]; rfl

/-- The writes performed by `doFilter` under any well-formed schedule:
exactly one write `out[ixMatch[i] - 1] = in[i]` for each covered `i`
with `bolMatch[i]` true, in index order, and nothing else. -/
theorem filterWrites_spec (inp : Nat → α) (bol : Nat → Bool) (ix : Nat → Nat) :
    ∀ (t : RTree), t.wf →
      filterWrites inp bol ix t =
        (idxList t.first (t.last - t.first)).filterMap
          (fun i => if bol i then some (ix i - 1, inp i) else none) := by
  intro t
  induction t with
  | leaf lo hi => intro _; exact filterWritesLeaf_eq inp bol ix _ _
  | node s l r ihl ihr =>
      intro h
      have hll := RTree.wf_first_le_last l h.1
      have hrr := RTree.wf_first_le_last r h.2.1
      have hmid := h.2.2
      simp only [filterWrites, RTree.first, RTree.last]
      rw [ihl h.1, ihr h.2.1, ← List.filterMap_append]
      have h1 : r.last - l.first = (l.last - l.first) + (r.last - r.first) := by
        omega
      rw [h1, idxList_append]
      have h2 : l.first + (l.last - l.first) = r.first := by omega
      rw [h2, hmid]

theorem applyWrites_append (ws1 ws2 : List (Nat × α)) (out : Nat → α) :
    applyWrites (ws1 ++ ws2) out = applyWrites ws2 (applyWrites ws1 out) := by
  simp [applyWrites, List.foldl_append]

/-! ### Counting lemmas and the `vecFilter` pipeline characterisation -/

/-- The predicate read through the input vector. -/
def predIdx (dflt : α) (pred : α → Bool) (input : List α) : Nat → Bool :=
  fun i => pred (input.getD i dflt)

/-- The idealised write trace of `vecFilter`'s scatter pass over the
first `k` input slots: destination `cnt (i+1) - 1` for each match. -/
def scatterW (dflt : α) (pred : α → Bool) (input : List α) (k : Nat) :
    List (Nat × α) :=
  (idxList 0 k).filterMap
    (fun i => if predIdx dflt pred input i then
        some (cnt (predIdx dflt pred input) (i + 1) - 1, input.getD i dflt)
      else none)

theorem cnt_succ (p : Nat → Bool) (k : Nat) :
    cnt p (k + 1) = cnt p k + (if p k then 1 else 0) := rfl

theorem cnt_mono (p : Nat → Bool) : ∀ (m k : Nat), k ≤ m → cnt p k ≤ cnt p m := by
  intro m
  induction m with
  | zero =>
      intro k h
      have hk : k = 0 := by omega
      subst hk
      exact Nat.le_refl _
  | succ m ih =>
      intro k h
      by_cases hk : k = m + 1
      · subst hk; exact Nat.le_refl _
      · have h1 := ih k (by omega)
        rw [cnt_succ]
        omega

theorem cnt_succ_of_true (p : Nat → Bool) (k : Nat) (h : p k = true) :
    cnt p (k + 1) = cnt p k + 1 := by
  rw [cnt_succ, if_pos h]

/-- Summing 0/1 indicators of `p` over `[0, k)` counts the matches. -/
theorem foldFrom_cnt (p : Nat → Bool) :
    ∀ (k acc : Nat),
      foldFrom (fun a b => a + b) (fun i => if p i then 1 else 0) acc 0 k =
        acc + cnt p k := by
  intro k
  induction k with
  | zero => intro acc; rfl
  | succ k ih =>
      intro acc
      rw [foldFrom_add (fun a b => a + b) _ k 1 acc 0, ih, Nat.zero_add,
        foldFrom_succ, foldFrom_zero, cnt_succ]
      by_cases hpk : p k
      · omega
      · omega

/-- The `bolMatch` array holds the predicate's value on every covered
slot and `false` (its initial value) elsewhere. -/
theorem vfBol_spec (dflt : α) (pred : α → Bool) (input : List α) (tm : RTree)
    (hm : tm.wf) (hmf : tm.first = 0) (hml : tm.last = input.length) :
    ∀ j, vfBol dflt pred input tm j =
      if j < input.length then predIdx dflt pred input j else false := by
  intro j
  unfold vfBol
  rw [doMap_spec pred _ tm hm _ j, hmf, hml]
  by_cases h : j < input.length
  · rw [if_pos ⟨Nat.zero_le j, h⟩, if_pos h]; rfl
  · rw [if_neg (fun hc => h hc.2), if_neg h]

/-- The scan step of `vecFilter` computes the inclusive running match
count at every covered slot and returns the total match count. -/
theorem vfScan_spec (dflt : α) (pred : α → Bool) (input : List α)
    (tm ts : RTree)
    (hm : tm.wf) (hmf : tm.first = 0) (hml : tm.last = input.length)
    (hs : ts.wf) (hsf : ts.first = 0) (hsl : ts.last = input.length) :
    (∀ i, i < input.length →
      (vfScan dflt pred input tm ts).1 i =
        cnt (predIdx dflt pred input) (i + 1)) ∧
    (vfScan dflt pred input tm ts).2 =
      cnt (predIdx dflt pred input) input.length ∧
    (∀ i, ¬ i < input.length → (vfScan dflt pred input tm ts).1 i = 0) := by
  have hagree : ∀ (k : Nat), k ≤ input.length →
      foldFrom (fun a b => a + b)
        (fun i => if vfBol dflt pred input tm i then 1 else 0) 0 0 k =
        cnt (predIdx dflt pred input) k := by
    intro k hk
    have hcongr := foldFrom_congr (fun a b => a + b)
      (fun i => if vfBol dflt pred input tm i then 1 else 0)
      (fun i => if predIdx dflt pred input i then 1 else 0) k 0 0
      (fun i h1 h2 => by
        show (if vfBol dflt pred input tm i then 1 else 0) =
          (if predIdx dflt pred input i then 1 else 0)
        rw [vfBol_spec dflt pred input tm hm hmf hml i,
          if_pos (show i < input.length by omega)])
    rw [hcongr, foldFrom_cnt, Nat.zero_add]
  obtain ⟨h2, h1⟩ := doScan_spec (fun a b => a + b) 0
    (fun i => if vfBol dflt pred input tm i then 1 else 0)
    (fun a b c => Nat.add_assoc a b c) (fun a => Nat.add_zero a)
    ts hs 0 (fun _ => 0)
  rw [hsf, hsl] at h1 h2
  refine ⟨fun i hi => ?_, ?_, fun i hi => ?_⟩
  · rw [show (vfScan dflt pred input tm ts).1 i =
        (doScan (fun a b => a + b) 0
          (fun i2 => if vfBol dflt pred input tm i2 then 1 else 0)
          ts 0 (fun _ => 0)).1 i from rfl,
      h1 i, if_pos ⟨Nat.zero_le i, hi⟩, Nat.sub_zero]
    exact hagree (i + 1) (by omega)
  · rw [show (vfScan dflt pred input tm ts).2 =
        (doScan (fun a b => a + b) 0
          (fun i2 => if vfBol dflt pred input tm i2 then 1 else 0)
          ts 0 (fun _ => 0)).2 from rfl,
      h2, Nat.sub_zero]
    exact hagree input.length (Nat.le_refl _)
  · rw [show (vfScan dflt pred input tm ts).1 i =
        (doScan (fun a b => a + b) 0
          (fun i2 => if vfBol dflt pred input tm i2 then 1 else 0)
          ts 0 (fun _ => 0)).1 i from rfl,
      h1 i, if_neg (fun hc => hi hc.2)]

theorem applyWrites_nil (out : Nat → α) : applyWrites [] out = out := rfl

theorem applyWrites_single (a : Nat) (v : α) (out : Nat → α) :
    applyWrites [(a, v)] out = upd out a v := rfl

/-- Invariant of the scatter pass: after replaying the writes of the
first `k` input slots, the output slots `[0, cnt k)` read back as the
filtered prefix of the input, and all later slots still hold the
initial value. -/
theorem scatter_inv (dflt : α) (pred : α → Bool) (input : List α) :
    ∀ (k : Nat), k ≤ input.length →
      ((List.range (cnt (predIdx dflt pred input) k)).map
        (applyWrites (scatterW dflt pred input k) (fun _ => dflt))
          = (input.take k).filter pred) ∧
      (∀ j, cnt (predIdx dflt pred input) k ≤ j →
        applyWrites (scatterW dflt pred input k) (fun _ => dflt) j = dflt) := by
  intro k
  induction k with
  | zero => exact fun _ => ⟨rfl, fun j _ => rfl⟩
  | succ k ih =>
      intro hk1
      obtain ⟨ih1, ih2⟩ := ih (by omega)
      have hkn : k < input.length := by omega
      have hget : input.getD k dflt = input[k] :=
        List.getD_eq_getElem input dflt hkn
      have htake : input.take (k + 1) = input.take k ++ [input.getD k dflt] := by
        rw [List.take_succ, List.getElem?_eq_getElem hkn, hget]
        rfl
      have hw : scatterW dflt pred input (k + 1) =
          scatterW dflt pred input k ++
            (if predIdx dflt pred input k then
              [(cnt (predIdx dflt pred input) (k + 1) - 1, input.getD k dflt)]
            else []) := by
        unfold scatterW
        rw [idxList_append k 1 0, List.filterMap_append, Nat.zero_add]
        by_cases hp : predIdx dflt pred input k
        · simp [idxList, hp]
        · simp [idxList, hp]
      by_cases hp : predIdx dflt pred input k
      · have hcnt : cnt (predIdx dflt pred input) (k + 1) =
            cnt (predIdx dflt pred input) k + 1 := cnt_succ_of_true _ k hp
        have hpk : pred (input.getD k dflt) = true := hp
        rw [hw, if_pos hp, applyWrites_append, hcnt, Nat.add_sub_cancel,
          applyWrites_single]
        constructor
        · rw [List.range_succ, List.map_append, htake, List.filter_append]
          congr 1
          · rw [List.map_congr_left (fun j hj => ?_)]
            · exact ih1
            · rw [List.mem_range] at hj
              show upd _ _ _ j = _
              rw [upd, if_neg (by omega)]
          · simp only [List.map_cons, List.map_nil, List.filter, hpk]
            show [upd _ _ _ (cnt (predIdx dflt pred input) k)] = _
            rw [upd, if_pos rfl]
        · intro j hj
          show upd _ _ _ j = dflt
          rw [upd, if_neg (by omega)]
          exact ih2 j (by omega)
      · have hcnt : cnt (predIdx dflt pred input) (k + 1) =
            cnt (predIdx dflt pred input) k := by
          rw [cnt_succ, if_neg hp]
          exact Nat.add_zero _
        have hpk : pred (input.getD k dflt) = false := by
          revert hp
          unfold predIdx
          cases pred (input.getD k dflt) <;> simp
        rw [hw, if_neg hp, List.append_nil, hcnt]
        constructor
        · rw [htake, List.filter_append]
          simp only [List.filter, hpk, List.filter_nil, List.append_nil]
          exact ih1
        · exact ih2

/-- `vecFilter` computes exactly the order-preserving sequential
filter of its input, under any well-formed schedules for its three
phases. -/
theorem vecFilter_eq_filter (dflt : α) (pred : α → Bool) (input : List α)
    (tm ts tf : RTree)
    (hm : tm.wf) (hmf : tm.first = 0) (hml : tm.last = input.length)
    (hs : ts.wf) (hsf : ts.first = 0) (hsl : ts.last = input.length)
    (hf : tf.wf) (hff : tf.first = 0) (hfl : tf.last = input.length) :
    vecFilter dflt pred input tm ts tf = input.filter pred := by
  obtain ⟨hix, htot, _⟩ :=
    vfScan_spec dflt pred input tm ts hm hmf hml hs hsf hsl
  unfold vecFilter doFilter
  rw [filterWrites_spec _ _ _ tf hf, hff, hfl, Nat.sub_zero]
  have hwr : (idxList 0 input.length).filterMap
      (fun i => if vfBol dflt pred input tm i then
        some ((vfScan dflt pred input tm ts).1 i - 1, input.getD i dflt)
      else none) = scatterW dflt pred input input.length := by
    unfold scatterW
    apply List.filterMap_congr
    intro x hx
    rw [mem_idxList] at hx
    have hxn : x < input.length := by omega
    rw [vfBol_spec dflt pred input tm hm hmf hml x,
      if_pos hxn, hix x hxn]
  rw [hwr, htot]
  exact ((scatter_inv dflt pred input input.length (Nat.le_refl _)).1).trans
    (by rw [List.take_length])

/-! ### The two inner-loop variants of `Body::operator()`
(seqvsparallel.cpp lines 45-75, toggled by `USE_OPTIMISED_LOOP`),
generalised from `+` on `T` to an arbitrary combiner `add`. -/

/-- Unoptimised variant (`USE_OPTIMISED_LOOP = 0`): a single loop that
tests `Tag::is_final_scan()` on every iteration —
`sum = sum + x[i]; if (is_final) y[i] = sum;`. -/
def bodyNaive (add : α → α → α) (x : Nat → α) (fin : Bool) :
    Nat → Nat → α → (Nat → α) → (Nat → α) × α
  | _, 0, sum, y => (y, sum)
  | i, c + 1, sum, y =>
      bodyNaive add x fin (i + 1) c (add sum (x i))
        (if fin then upd y i (add sum (x i)) else y)

/-- Final-scan loop of the optimised variant:
`sum = sum + x[i]; y[i] = sum;`. -/
def bodyOptFinal (add : α → α → α) (x : Nat → α) :
    Nat → Nat → α → (Nat → α) → (Nat → α) × α
  | _, 0, sum, y => (y, sum)
  | i, c + 1, sum, y =>
      bodyOptFinal add x (i + 1) c (add sum (x i)) (upd y i (add sum (x i)))

/-- Pre-scan loop of the optimised variant: `sum = sum + x[i];`,
no writes to `y`. -/
def bodyOptPre (add : α → α → α) (x : Nat → α) : Nat → Nat → α → α
  | _, 0, sum => sum
  | i, c + 1, sum => bodyOptPre add x (i + 1) c (add sum (x i))

/-- Optimised variant (`USE_OPTIMISED_LOOP = 1`): evaluate
`Tag::is_final_scan()` once and run one of two separate loops. -/
def bodyOpt (add : α → α → α) (x : Nat → α) (fin : Bool) (i c : Nat)
    (sum : α) (y : Nat → α) : (Nat → α) × α :=
  if fin then bodyOptFinal add x i c sum y
  else (y, bodyOptPre add x i c sum)

/-! ### Extra counting lemma for scatter safety -/

theorem cnt_pos_of_true (p : Nat → Bool) (i k : Nat) (hik : i < k)
    (hp : p i = true) : 1 ≤ cnt p k := by
  have h1 := cnt_succ_of_true p i hp
  have h2 := cnt_mono p k (i + 1) hik
  omega

/-! ### Sample schedules used to instantiate the theorems -/

/-- Empty-range schedule. -/
def tree0 : RTree := .leaf 0 0

/-- A schedule of `[0, 1)` with an empty stolen left leaf. -/
def tree1 : RTree := .node true (.leaf 0 0) (.leaf 0 1)

/-- A schedule of `[0, 3)` mixing sequential and stolen nodes. -/
def tree3 : RTree := .node false (.leaf 0 1) (.node true (.leaf 1 2) (.leaf 2 3))

/-- A schedule of `[0, 4)` with a stolen right subtree. -/
def tree4 : RTree := .node true (.leaf 0 2) (.node false (.leaf 2 3) (.leaf 3 4))

/-- A schedule of `[0, 8)`, unbalanced, mixing stolen and sequential
nodes. -/
def tree8 : RTree :=
  .node true (.node false (.leaf 0 2) (.leaf 2 4))
    (.node true (.leaf 4 6) (.node false (.leaf 6 7) (.leaf 7 8)))

/-! ### Claims -/

/-- C9: the two inner-loop variants of the scan body —
`USE_OPTIMISED_LOOP = 1` (two separate loops selected once by
`Tag::is_final_scan()`) versus `USE_OPTIMISED_LOOP = 0` (one loop
testing `Tag::is_final_scan()` each iteration) — are semantically
equivalent: for every range `[i, i + c)`, incoming sum and tag, both
leave the same final accumulator value and perform the same writes to
the output array. -/
theorem bodyOpt_eq_bodyNaive (add : α → α → α) (x : Nat → α) :
    ∀ (fin : Bool) (c i : Nat) (sum : α) (y : Nat → α),
      bodyOpt add x fin i c sum y = bodyNaive add x fin i c sum y := by
  intro fin
  cases fin with
  | false =>
      intro c
      induction c with
      | zero => intro i sum y; rfl
      | succ c ih =>
          intro i sum y
          have h1 : bodyNaive add x false i (c + 1) sum y =
              bodyNaive add x false (i + 1) c (add sum (x i)) y := rfl
          rw [h1, ← ih (i + 1) (add sum (x i)) y]
          rfl
  | true =>
      intro c
      induction c with
      | zero => intro i sum y; rfl
      | succ c ih =>
          intro i sum y
          have h1 : bodyNaive add x true i (c + 1) sum y =
              bodyNaive add x true (i + 1) c (add sum (x i))
                (upd y i (add sum (x i))) := rfl
          rw [h1, ← ih (i + 1) (add sum (x i)) (upd y i (add sum (x i)))]
          rfl

/-- C4: under every well-formed schedule covering `[0, n)` — hence
independently of how the range is partitioned and of how many workers
execute it — `doMap` sets `out[i] = f(in[i])` for every `i < n` and
has no effect besides these writes: every slot outside `[0, n)` still
holds its previous value. -/
theorem doMap_pointwise (f : α → β) (inp : Nat → α) (n : Nat) (t : RTree)
    (hw : t.wf) (hf : t.first = 0) (hl : t.last = n) :
    ∀ (out : Nat → β) (j : Nat),
      doMap f inp t out j = if j < n then f (inp j) else out j := by
  intro out j
  rw [doMap_spec f inp t hw out j, hf, hl]
  by_cases h : j < n
  · rw [if_pos ⟨Nat.zero_le j, h⟩, if_pos h]
  · rw [if_neg (fun hc => h hc.2), if_neg h]

/-- Witness for C4: a concrete map run under the schedule `tree4`. -/
theorem doMap_pointwise_witness :
    RTree.wf tree4 ∧
    doMap (fun i => i * 2) (fun i => i + 1) tree4 (fun _ => 99) 2 = 6 ∧
    doMap (fun i => i * 2) (fun i => i + 1) tree4 (fun _ => 99) 7 = 99 := by
  have h := doMap_pointwise (fun i => i * 2) (fun i => i + 1) 4 tree4
    (by decide) (by decide) (by decide)
  refine ⟨by decide, ?_, ?_⟩
  · rw [h (fun _ => 99) 2]; decide
  · rw [h (fun _ => 99) 7]; decide

/-- C3: under every well-formed schedule covering `[0, n)`, the
scatter pass `doFilter(out, in, bolMatch, ixMatch, n)` performs
exactly the writes `out[ixMatch[i] - 1] = in[i]` for the indices
`i < n` with `bolMatch[i]` true — its write trace is exactly that
filterMap — and no other writes: the final array is the initial one
with only those stores replayed. -/
theorem doFilter_writes (inp : Nat → α) (bol : Nat → Bool) (ix : Nat → Nat)
    (t : RTree) (n : Nat) (hw : t.wf) (hf : t.first = 0) (hl : t.last = n) :
    filterWrites inp bol ix t =
      (List.range n).filterMap
        (fun i => if bol i then some (ix i - 1, inp i) else none) ∧
    ∀ out, doFilter inp bol ix t out =
      applyWrites ((List.range n).filterMap
        (fun i => if bol i then some (ix i - 1, inp i) else none)) out := by
  have h := filterWrites_spec inp bol ix t hw
  rw [hf, hl, Nat.sub_zero, idxList_eq_range] at h
  exact ⟨h, fun out => by unfold doFilter; rw [h]⟩

/-- Witness for C3: the write trace of a concrete scatter under the
schedule `tree4`. -/
theorem doFilter_writes_witness :
    RTree.wf tree4 ∧
    filterWrites (fun i => i) (fun i => decide (i % 2 = 0))
      (fun i => i / 2 + 1) tree4 = [(0, 0), (1, 2)] := by
  have h := doFilter_writes (fun i => i) (fun i => decide (i % 2 = 0))
    (fun i => i / 2 + 1) tree4 4 (by decide) (by decide) (by decide)
  exact ⟨by decide, h.1.trans (by decide)⟩

/-- C10: for every associative combiner with identity, every input and
every well-formed schedule covering `[0, n)` with `n ≥ 1`, the summary
returned by `doScan` equals `out[n - 1]`, the last prefix written to
the output array. -/
theorem doScan_total_eq_last (f : α → α → α) (ident : α) (inp : Nat → α)
    (n : Nat) (t : RTree) (out0 : Nat → α)
    (hw : t.wf) (hf : t.first = 0) (hl : t.last = n) (hn : 1 ≤ n)
    (hassoc : ∀ a b c, f (f a b) c = f a (f b c))
    (hidr : ∀ a, f a ident = a) :
    (doScan f ident inp t ident out0).2 =
      (doScan f ident inp t ident out0).1 (n - 1) := by
  obtain ⟨h2, h1⟩ := doScan_spec f ident inp hassoc hidr t hw ident out0
  rw [hf, hl] at h1 h2
  rw [h2, h1 (n - 1), if_pos (by omega)]
  simp only [Nat.sub_zero]
  rw [show n - 1 + 1 = n by omega]

/-- Witness for C10: the total of a concrete scan under `tree4` equals
its last written prefix. -/
theorem doScan_total_eq_last_witness :
    RTree.wf tree4 ∧
    (doScan Nat.add 0 (fun i => i + 1) tree4 0 (fun _ => 0)).2 =
      (doScan Nat.add 0 (fun i => i + 1) tree4 0 (fun _ => 0)).1 3 := by
  have h := doScan_total_eq_last Nat.add 0 (fun i => i + 1) 4 tree4
    (fun _ => 0) (by decide) (by decide) (by decide) (by omega)
    (fun a b c => Nat.add_assoc a b c) (fun a => Nat.add_zero a)
  exact ⟨by decide, h⟩

/-- With a left identity, the fold from the identity over
`[lo, lo + c + 1)` is the bare chain `in[lo] ⊕ … ⊕ in[lo + c]`. -/
theorem foldFrom_head (f : α → α → α) (ident : α) (inp : Nat → α)
    (hidl : ∀ a, f ident a = a) (lo c : Nat) :
    foldFrom f inp ident lo (c + 1) = foldFrom f inp (inp lo) (lo + 1) c := by
  rw [foldFrom_succ, hidl]

/-- C1: for every length `n`, input, identity element and associative
combiner, and every well-formed schedule covering `[0, n)`, `doScan`
is identical — output array and returned value — to the strictly
sequential left-to-right fold `DoSerialScan` with the same combiner;
it sets `out[i] = in[0] ⊕ … ⊕ in[i]` for every `i < n` and returns
the grand total `in[0] ⊕ … ⊕ in[n-1]` (the fold of the whole range
from the identity; for `n ≥ 1` the bare chain). -/
theorem doScan_eq_serial_fold (f : α → α → α) (ident : α) (inp : Nat → α)
    (n : Nat) (t : RTree) (out0 : Nat → α)
    (hw : t.wf) (hf : t.first = 0) (hl : t.last = n)
    (hassoc : ∀ a b c, f (f a b) c = f a (f b c))
    (hidl : ∀ a, f ident a = a) (hidr : ∀ a, f a ident = a) :
    doScan f ident inp t ident out0 = DoSerialScan f ident inp n out0 ∧
    (∀ i, i < n → (doScan f ident inp t ident out0).1 i =
      foldFrom f inp (inp 0) 1 i) ∧
    (doScan f ident inp t ident out0).2 = foldFrom f inp ident 0 n ∧
    (1 ≤ n → (doScan f ident inp t ident out0).2 =
      foldFrom f inp (inp 0) 1 (n - 1)) := by
  obtain ⟨h2, h1⟩ := doScan_spec f ident inp hassoc hidr t hw ident out0
  rw [hf, hl] at h1 h2
  have hserial1 : ∀ j, (DoSerialScan f ident inp n out0).1 j =
      if 0 ≤ j ∧ j < 0 + n then foldFrom f inp ident 0 (j + 1 - 0)
      else out0 j := by
    intro j
    unfold DoSerialScan
    rw [serialLoop_eq_scanLeafFinal, scanLeafFinal_fst]
  have hserial2 : (DoSerialScan f ident inp n out0).2 =
      foldFrom f inp ident 0 n := by
    unfold DoSerialScan
    rw [serialLoop_eq_scanLeafFinal, scanLeafFinal_snd]
  refine ⟨?_, ?_, ?_, ?_⟩
  · apply Prod.ext_iff.mpr
    constructor
    · funext j
      rw [h1 j, hserial1 j]
      by_cases hj : j < n
      · rw [if_pos (show (0 : Nat) ≤ j ∧ j < n by omega),
          if_pos (show (0 : Nat) ≤ j ∧ j < 0 + n by omega)]
      · rw [if_neg (show ¬((0 : Nat) ≤ j ∧ j < n) by omega),
          if_neg (show ¬((0 : Nat) ≤ j ∧ j < 0 + n) by omega)]
    · rw [h2, hserial2, Nat.sub_zero]
  · intro i hi
    rw [h1 i, if_pos (show (0 : Nat) ≤ i ∧ i < n by omega)]
    simp only [Nat.sub_zero]
    exact foldFrom_head f ident inp hidl 0 i
  · rw [h2, Nat.sub_zero]
  · intro hn
    obtain ⟨m, hm⟩ : ∃ m, n = m + 1 := ⟨n - 1, by omega⟩
    subst hm
    rw [h2, Nat.sub_zero, Nat.add_sub_cancel]
    exact foldFrom_head f ident inp hidl 0 m

/-- Witness for C1 at a concrete instance under `tree4`. -/
theorem doScan_eq_serial_fold_witness :
    RTree.wf tree4 ∧
    (doScan Nat.add 0 (fun i => i + 1) tree4 0 (fun _ => 0)).2 = 10 ∧
    (doScan Nat.add 0 (fun i => i + 1) tree4 0 (fun _ => 0)).1 2 = 6 := by
  have h := doScan_eq_serial_fold Nat.add 0 (fun i => i + 1) 4 tree4
    (fun _ => 0) (by decide) (by decide) (by decide)
    (fun a b c => Nat.add_assoc a b c) (fun a => Nat.zero_add a)
    (fun a => Nat.add_zero a)
  refine ⟨by decide, ?_, ?_⟩
  · rw [h.2.2.1]; decide
  · rw [h.2.1 2 (by omega)]; decide

/-- C7: edge cases.  On an empty range (`n = 0`): `doMap` leaves the
output array untouched, `doScan` writes nothing and returns the
identity, and `vecFilter` of the empty vector is the empty vector.
On a one-element range: `doScan` sets
`out[0] = identity ⊕ in[0] = in[0]` exactly. -/
theorem edge_cases (f : α → α → α) (ident : α) (inp : Nat → α)
    (g : α → β) (out0 : Nat → β) (outs : Nat → α)
    (dflt : α) (pred : α → Bool) (t0 tm ts tf t1 : RTree)
    (h0 : t0.wf) (h0f : t0.first = 0) (h0l : t0.last = 0)
    (hm : tm.wf) (hmf : tm.first = 0) (hml : tm.last = 0)
    (hs : ts.wf) (hsf : ts.first = 0) (hsl : ts.last = 0)
    (hfw : tf.wf) (hff : tf.first = 0) (hfl : tf.last = 0)
    (h1w : t1.wf) (h1f : t1.first = 0) (h1l : t1.last = 1)
    (hassoc : ∀ a b c, f (f a b) c = f a (f b c))
    (hidl : ∀ a, f ident a = a) (hidr : ∀ a, f a ident = a) :
    doMap g inp t0 out0 = out0 ∧
    doScan f ident inp t0 ident outs = (outs, ident) ∧
    vecFilter dflt pred ([] : List α) tm ts tf = [] ∧
    (doScan f ident inp t1 ident outs).1 0 = inp 0 := by
  refine ⟨?_, ?_, ?_, ?_⟩
  · funext j
    rw [doMap_spec g inp t0 h0 out0 j, h0f, h0l,
      if_neg (show ¬((0 : Nat) ≤ j ∧ j < 0) by omega)]
  · obtain ⟨h2, h1⟩ := doScan_spec f ident inp hassoc hidr t0 h0 ident outs
    rw [h0f, h0l] at h1 h2
    apply Prod.ext_iff.mpr
    constructor
    · funext j
      rw [h1 j, if_neg (show ¬((0 : Nat) ≤ j ∧ j < 0) by omega)]
    · rw [h2]
      rfl
  · exact (vecFilter_eq_filter dflt pred [] tm ts tf
      hm hmf hml hs hsf hsl hfw hff hfl).trans rfl
  · obtain ⟨h2, h1⟩ := doScan_spec f ident inp hassoc hidr t1 h1w ident outs
    rw [h1f, h1l] at h1
    rw [h1 0, if_pos (show (0 : Nat) ≤ 0 ∧ 0 < 1 by omega)]
    simp only [Nat.sub_zero]
    rw [foldFrom_succ, foldFrom_zero, hidl]

/-- Witness for C7 at concrete instances under `tree0` and `tree1`. -/
theorem edge_cases_witness :
    RTree.wf tree1 ∧
    (doScan Nat.add 0 (fun i => i + 5) tree1 0 (fun _ => 7)).1 0 = 5 ∧
    vecFilter 0 (fun x => decide (2 ≤ x)) ([] : List Nat)
      tree0 tree0 tree0 = [] := by
  have h := edge_cases Nat.add 0 (fun i => i + 5) (fun a => a)
    (fun _ => 7) (fun _ => 7) 0 (fun x => decide (2 ≤ x))
    tree0 tree0 tree0 tree0 tree1
    (by decide) (by decide) (by decide) (by decide) (by decide) (by decide)
    (by decide) (by decide) (by decide) (by decide) (by decide) (by decide)
    (by decide) (by decide) (by decide)
    (fun a b c => Nat.add_assoc a b c) (fun a => Nat.zero_add a)
    (fun a => Nat.add_zero a)
  exact ⟨by decide, h.2.2.2, h.2.2.1⟩

/-- C2: `vecFilter` returns exactly the elements of the input
satisfying the predicate, in their original relative order (it equals
the sequential `List.filter`); its length is the number of satisfying
elements, and the grand total returned by the prefix-sum scan equals
that output length. -/
theorem vecFilter_spec (dflt : α) (pred : α → Bool) (input : List α)
    (tm ts tf : RTree)
    (hm : tm.wf) (hmf : tm.first = 0) (hml : tm.last = input.length)
    (hs : ts.wf) (hsf : ts.first = 0) (hsl : ts.last = input.length)
    (hfw : tf.wf) (hff : tf.first = 0) (hfl : tf.last = input.length) :
    vecFilter dflt pred input tm ts tf = input.filter pred ∧
    (vecFilter dflt pred input tm ts tf).length = input.countP pred ∧
    (vfScan dflt pred input tm ts).2 =
      (vecFilter dflt pred input tm ts tf).length := by
  have he := vecFilter_eq_filter dflt pred input tm ts tf
    hm hmf hml hs hsf hsl hfw hff hfl
  have hlen : (vecFilter dflt pred input tm ts tf).length =
      (vfScan dflt pred input tm ts).2 := by
    unfold vecFilter
    rw [List.length_map, List.length_range]
  refine ⟨he, ?_, hlen.symm⟩
  rw [he, List.countP_eq_length_filter]

/-- Witness for C2 at a concrete instance under `tree3`. -/
theorem vecFilter_spec_witness :
    RTree.wf tree3 ∧
    vecFilter 0 (fun x => decide (2 ≤ x)) [3, 1, 2] tree3 tree3 tree3 =
      [3, 2] ∧
    (vfScan 0 (fun x => decide (2 ≤ x)) [3, 1, 2] tree3 tree3).2 = 2 := by
  have h := vecFilter_spec 0 (fun x => decide (2 ≤ x)) [3, 1, 2]
    tree3 tree3 tree3
    (by decide) (by decide) (by decide) (by decide) (by decide) (by decide)
    (by decide) (by decide) (by decide)
  have hfil : List.filter (fun x => decide (2 ≤ x)) [3, 1, 2] = [3, 2] := by
    decide
  refine ⟨by decide, h.1.trans hfil, ?_⟩
  rw [h.2.2, h.1.trans hfil]
  decide

/-- C5: in `doFilter` as invoked by `vecFilter` (`ixMatch` the
inclusive prefix sum of `bolMatch`, output pre-sized to the scan's
grand total), every matched index `i` has a running count
`ixMatch[i] ≥ 1` and a destination `ixMatch[i] - 1` within the bounds
`[0, output length)` — so every scatter write is in bounds, also when
only a single element matches — and the scatter writes target
pairwise distinct slots: for distinct matched indices `i < j` the
destinations `ixMatch[i] - 1` and `ixMatch[j] - 1` differ. -/
theorem vecFilter_scatter_safe (dflt : α) (pred : α → Bool) (input : List α)
    (tm ts : RTree)
    (hm : tm.wf) (hmf : tm.first = 0) (hml : tm.last = input.length)
    (hs : ts.wf) (hsf : ts.first = 0) (hsl : ts.last = input.length) :
    (∀ i, i < input.length → vfBol dflt pred input tm i = true →
      1 ≤ (vfScan dflt pred input tm ts).1 i ∧
      (vfScan dflt pred input tm ts).1 i - 1 <
        (vfScan dflt pred input tm ts).2) ∧
    (∀ i j, i < j → j < input.length →
      vfBol dflt pred input tm i = true →
      vfBol dflt pred input tm j = true →
      (vfScan dflt pred input tm ts).1 i - 1 ≠
        (vfScan dflt pred input tm ts).1 j - 1) := by
  obtain ⟨hix, htot, _⟩ :=
    vfScan_spec dflt pred input tm ts hm hmf hml hs hsf hsl
  have hpix : ∀ i, i < input.length → vfBol dflt pred input tm i = true →
      predIdx dflt pred input i = true := by
    intro i hi hbi
    have h := (vfBol_spec dflt pred input tm hm hmf hml i).symm.trans hbi
    rw [if_pos hi] at h
    exact h
  constructor
  · intro i hi hbi
    rw [hix i hi, htot]
    have e1 := cnt_succ_of_true (predIdx dflt pred input) i (hpix i hi hbi)
    have e2 := cnt_mono (predIdx dflt pred input) input.length (i + 1) hi
    omega
  · intro i j hij hj hbi hbj
    rw [hix i (by omega), hix j hj]
    have e1 := cnt_succ_of_true (predIdx dflt pred input) i
      (hpix i (by omega) hbi)
    have e2 := cnt_succ_of_true (predIdx dflt pred input) j (hpix j hj hbj)
    have e3 := cnt_mono (predIdx dflt pred input) j (i + 1) (by omega)
    omega

/-- Witness for C5: the single-match input `[7, 1, 0, 13]` with
predicate `x > 10` (sole match at index 3, destination 0, output
length 1) under `tree4`, plus a distinctness pair on `[3, 1, 2]`
under `tree3`. -/
theorem vecFilter_scatter_safe_witness :
    vfBol 0 (fun x => decide (10 < x)) [7, 1, 0, 13] tree4 3 = true ∧
    1 ≤ (vfScan 0 (fun x => decide (10 < x)) [7, 1, 0, 13] tree4 tree4).1 3 ∧
    (vfScan 0 (fun x => decide (10 < x)) [7, 1, 0, 13] tree4 tree4).1 3 - 1 <
      (vfScan 0 (fun x => decide (10 < x)) [7, 1, 0, 13] tree4 tree4).2 ∧
    (vfScan 0 (fun x => decide (2 ≤ x)) [3, 1, 2] tree3 tree3).1 0 - 1 ≠
      (vfScan 0 (fun x => decide (2 ≤ x)) [3, 1, 2] tree3 tree3).1 2 - 1 := by
  have h1 := vecFilter_scatter_safe 0 (fun x => decide (10 < x)) [7, 1, 0, 13]
    tree4 tree4
    (by decide) (by decide) (by decide) (by decide) (by decide) (by decide)
  have h2 := vecFilter_scatter_safe 0 (fun x => decide (2 ≤ x)) [3, 1, 2]
    tree3 tree3
    (by decide) (by decide) (by decide) (by decide) (by decide) (by decide)
  have hb := h1.1 3 (by decide) (by decide)
  exact ⟨by decide, hb.1, hb.2,
    h2.2 0 2 (by omega) (by decide) (by decide) (by decide)⟩

/-- C6: schedule independence — for a fixed input, the outputs and
returned totals of scan and filter do not depend on how the index
range is partitioned into sub-ranges (grain size) or on the worker
stealing pattern: any two well-formed schedules covering `[0, n)`
produce identical `doScan` results, and any two schedule triples
produce identical `vecFilter` results. -/
theorem schedule_independence (f : α → α → α) (ident : α) (inp : Nat → α)
    (n : Nat) (out0 : Nat → α) (t1 t2 : RTree)
    (hassoc : ∀ a b c, f (f a b) c = f a (f b c))
    (hidr : ∀ a, f a ident = a)
    (h1w : t1.wf) (h1f : t1.first = 0) (h1l : t1.last = n)
    (h2w : t2.wf) (h2f : t2.first = 0) (h2l : t2.last = n)
    (dflt : α) (pred : α → Bool) (input : List α)
    (tm1 ts1 tf1 tm2 ts2 tf2 : RTree)
    (hm1 : tm1.wf) (hmf1 : tm1.first = 0) (hml1 : tm1.last = input.length)
    (hs1 : ts1.wf) (hsf1 : ts1.first = 0) (hsl1 : ts1.last = input.length)
    (hg1 : tf1.wf) (hgf1 : tf1.first = 0) (hgl1 : tf1.last = input.length)
    (hm2 : tm2.wf) (hmf2 : tm2.first = 0) (hml2 : tm2.last = input.length)
    (hs2 : ts2.wf) (hsf2 : ts2.first = 0) (hsl2 : ts2.last = input.length)
    (hg2 : tf2.wf) (hgf2 : tf2.first = 0) (hgl2 : tf2.last = input.length) :
    doScan f ident inp t1 ident out0 = doScan f ident inp t2 ident out0 ∧
    vecFilter dflt pred input tm1 ts1 tf1 =
      vecFilter dflt pred input tm2 ts2 tf2 := by
  constructor
  · obtain ⟨ha2, ha1⟩ := doScan_spec f ident inp hassoc hidr t1 h1w ident out0
    obtain ⟨hb2, hb1⟩ := doScan_spec f ident inp hassoc hidr t2 h2w ident out0
    rw [h1f, h1l] at ha1 ha2
    rw [h2f, h2l] at hb1 hb2
    apply Prod.ext_iff.mpr
    constructor
    · funext j
      rw [ha1 j, hb1 j]
    · rw [ha2, hb2]
  · rw [vecFilter_eq_filter dflt pred input tm1 ts1 tf1
      hm1 hmf1 hml1 hs1 hsf1 hsl1 hg1 hgf1 hgl1,
      vecFilter_eq_filter dflt pred input tm2 ts2 tf2
      hm2 hmf2 hml2 hs2 hsf2 hsl2 hg2 hgf2 hgl2]

/-- Witness for C6: two different schedules of the same ranges give
the same scan and filter results. -/
theorem schedule_independence_witness :
    RTree.wf tree4 ∧
    doScan Nat.add 0 (fun i => i * i) tree4 0 (fun _ => 0) =
      doScan Nat.add 0 (fun i => i * i) (RTree.leaf 0 4) 0 (fun _ => 0) ∧
    vecFilter 0 (fun x => decide (2 ≤ x)) [3, 1, 2] tree3 tree3 tree3 =
      vecFilter 0 (fun x => decide (2 ≤ x)) [3, 1, 2]
        (RTree.leaf 0 3) (RTree.leaf 0 3) (RTree.leaf 0 3) := by
  have h := schedule_independence Nat.add 0 (fun i => i * i) 4
    (fun _ => 0) tree4 (RTree.leaf 0 4)
    (fun a b c => Nat.add_assoc a b c) (fun a => Nat.add_zero a)
    (by decide) (by decide) (by decide) (by decide) (by decide) (by decide)
    0 (fun x => decide (2 ≤ x)) [3, 1, 2]
    tree3 tree3 tree3 (RTree.leaf 0 3) (RTree.leaf 0 3) (RTree.leaf 0 3)
    (by decide) (by decide) (by decide) (by decide) (by decide) (by decide)
    (by decide) (by decide) (by decide) (by decide) (by decide) (by decide)
    (by decide) (by decide) (by decide) (by decide) (by decide) (by decide)
  exact ⟨by decide, h.1, h.2⟩

/-- C8: the driver scenario of `main` — input
`[7, 1, 0, 13, 0, 15, 20, -1]` with predicate `x > 10`.  Under every
well-formed schedule triple, the map step produces
`boolMatch = [0,0,0,1,0,1,1,0]` (as booleans), the scan step produces
the inclusive prefix sums `idxMatch = [0,0,0,1,1,2,3,3]` with grand
total 3, and the filtered output is `[13, 15, 20]`, of length 3. -/
theorem packing_scenario (tm ts tf : RTree)
    (hm : tm.wf) (hmf : tm.first = 0) (hml : tm.last = 8)
    (hs : ts.wf) (hsf : ts.first = 0) (hsl : ts.last = 8)
    (hfw : tf.wf) (hff : tf.first = 0) (hfl : tf.last = 8) :
    (∀ i, i < 8 →
      vfBol 0 (fun x => decide (10 < x)) [7, 1, 0, 13, 0, 15, 20, -1] tm i =
        [false, false, false, true, false, true, true, false].getD i false) ∧
    (∀ i, i < 8 →
      (vfScan 0 (fun x => decide (10 < x)) [7, 1, 0, 13, 0, 15, 20, -1]
        tm ts).1 i = [0, 0, 0, 1, 1, 2, 3, 3].getD i 0) ∧
    (vfScan 0 (fun x => decide (10 < x)) [7, 1, 0, 13, 0, 15, 20, -1]
      tm ts).2 = 3 ∧
    vecFilter 0 (fun x => decide (10 < x)) [7, 1, 0, 13, 0, 15, 20, -1]
      tm ts tf = [13, 15, 20] ∧
    (vecFilter 0 (fun x => decide (10 < x)) [7, 1, 0, 13, 0, 15, 20, -1]
      tm ts tf).length = 3 := by
  obtain ⟨hix, htot, _⟩ := vfScan_spec 0 (fun x => decide (10 < x))
    [7, 1, 0, 13, 0, 15, 20, -1] tm ts hm hmf hml hs hsf hsl
  have hout := vecFilter_eq_filter 0 (fun x => decide (10 < x))
    [7, 1, 0, 13, 0, 15, 20, -1] tm ts tf hm hmf hml hs hsf hsl hfw hff hfl
  have hfil : List.filter (fun x => decide (10 < x))
      [7, 1, 0, 13, 0, 15, 20, -1] = ([13, 15, 20] : List Int) := by decide
  refine ⟨?_, ?_, ?_, hout.trans hfil, ?_⟩
  · intro i hi
    rw [vfBol_spec 0 (fun x => decide (10 < x)) [7, 1, 0, 13, 0, 15, 20, -1]
      tm hm hmf hml i,
      if_pos (show i < ([7, 1, 0, 13, 0, 15, 20, -1] : List Int).length
        from hi)]
    interval_cases i <;> decide
  · intro i hi
    rw [hix i hi]
    interval_cases i <;> decide
  · rw [htot]
    decide
  · rw [hout.trans hfil]
    decide

/-- Witness for C8 under the concrete schedule `tree8`. -/
theorem packing_scenario_witness :
    RTree.wf tree8 ∧
    vecFilter 0 (fun x => decide (10 < x)) [7, 1, 0, 13, 0, 15, 20, -1]
      tree8 tree8 tree8 = [13, 15, 20] ∧
    (vfScan 0 (fun x => decide (10 < x)) [7, 1, 0, 13, 0, 15, 20, -1]
      tree8 tree8).2 = 3 := by
  have h := packing_scenario tree8 tree8 tree8
    (by decide) (by decide) (by decide) (by decide) (by decide) (by decide)
    (by decide) (by decide) (by decide)
  exact ⟨by decide, h.2.2.2.1, h.2.2.1⟩
